import Mathlib

/-!
Verification of the REVOXSMOKIE restaurant-ordering application.

The definitions below are a shallow embedding of the TypeScript source:

* `src/app/api/orders/route.ts`          — `ordersPOST` (order placement)
* `src/app/api/order-tracking/route.ts`  — `trackingGET`, `trackingPUT`
* `src/unnamed/part_000` (staff orders dashboard)
                                          — `loadOrdersQuery`, `dashUpdateOrderStatus`
* `src/lib/security.ts`                  — `SecurityManager` (rate limiter,
                                           validators, encrypt/decrypt)
* `src/lib/trackingSystem.ts`            — `TrackingSystem`

Strings manipulated character-by-character (item display names) are embedded
as `List Char`; status values and other opaque strings as `String`; money as
`ℚ` (the JavaScript numbers involved are exact in the source's value ranges);
timestamps as integers.  The managed database is a record of table rows; the
database-assigned values (sequence numbers, row ids, clock readings) and the
success/failure of each write are explicit parameters of the handlers.
-/

namespace Smokie

open scoped List

/-! ## JavaScript string primitives used by the handlers -/

/-- JS `s.includes(pat)`: substring containment. -/
def jsIncludes (s pat : List Char) : Bool := decide (pat <:+: s)

/-- JS `s.replace(pat, repl)` for a plain-string pattern: replaces the first
occurrence of `pat` in `s` (the string is unchanged when `pat` does not
occur). -/
def jsReplaceFirst (s pat repl : List Char) : List Char :=
  match s with
  | [] => if pat.isPrefixOf ([] : List Char) then repl else []
  | c :: rest =>
      if pat.isPrefixOf (c :: rest) then repl ++ (c :: rest).drop pat.length
      else c :: jsReplaceFirst rest pat repl

/-- JS `a || b` on optional strings: `a` unless it is absent or empty. -/
def strOrElse (a : Option (List Char)) (b : List Char) : List Char :=
  match a with
  | some s => if s = [] then b else s
  | none => b

/-- JS `a || b` on optional numbers: `a` unless it is absent or `0`. -/
def numOrElse (a b : Option Nat) : Option Nat :=
  match a with
  | some n => if n = 0 then b else some n
  | none => b

/-! ## Data model: the `orders` and `order_items` tables -/

/-- A row of the `orders` table. -/
structure OrderRow where
  id : Nat
  order_number : Nat
  verification_number : Nat
  total_amount : ℚ
  status : String
  created_at : Nat
  updated_at : Nat
  completed_at : Option Nat
  deriving DecidableEq, Repr

/-- A row of the `order_items` table. -/
structure ItemRow where
  order_id : Nat
  menu_item_id : Option Nat
  base_name : List Char
  size_code : List Char
  protein : List Char
  quantity : Nat
  unit_price : ℚ
  total_amount : ℚ
  deriving DecidableEq, Repr

/-- The database state the order handlers touch. -/
structure Db where
  orders : List OrderRow
  order_items : List ItemRow
  deriving DecidableEq, Repr

/-! ## POST /api/orders — order placement (`src/app/api/orders/route.ts`) -/

/-- One entry of the request's `items` array, after the JSON parse.
`quantity` and `price` hold the values of `parseInt(item.quantity)` and
`parseFloat(item.price)`. -/
structure ReqItem where
  id : Option Nat
  menu_item_id : Option Nat
  name : Option (List Char)
  base_name : Option (List Char)
  variant : Option (List Char)
  protein : Option (List Char)
  quantity : Nat
  price : ℚ
  deriving DecidableEq, Repr

/-- The POST /api/orders request body.  `totalAmount` holds the value of
`parseFloat(totalAmount)`.  The handler destructures only `items`,
`customerInfo`, `totalAmount` and `customer_notes`; a client-supplied
`status` field is carried here to show it is never read. -/
structure OrderReq where
  items : List ReqItem
  totalAmount : ℚ
  status : Option String
  deriving DecidableEq, Repr

inductive PostResult where
  | ok (order : OrderRow)
  | dbError (msg : String)
  deriving DecidableEq, Repr

/-- The item-name parsing inside the POST handler: `includes('Regular')`
(checked first) selects size code `R` and removes the first occurrence of
`' Regular'`; otherwise `includes('Large')` selects `L` and removes the
first `' Large'`; otherwise the name is kept whole with an empty size code. -/
def splitNameSize (name : List Char) : List Char × List Char :=
  if jsIncludes name "Regular".toList then
    (jsReplaceFirst name " Regular".toList [], ['R'])
  else if jsIncludes name "Large".toList then
    (jsReplaceFirst name " Large".toList [], ['L'])
  else (name, [])

/-- The order-item row built for one request item (the `items.map` body). -/
def mkOrderItem (orderNumber : Nat) (item : ReqItem) : ItemRow :=
  let unitPrice := item.price
  let quantity := item.quantity
  let totalAmount := unitPrice * quantity
  let baseName0 := strOrElse item.name (strOrElse item.base_name "Unknown Item".toList)
  let protein := strOrElse item.variant (strOrElse item.protein "Standard".toList)
  let parsed := splitNameSize baseName0
  { order_id := orderNumber
    menu_item_id := numOrElse item.menu_item_id item.id
    base_name := parsed.1
    size_code := parsed.2
    protein := protein
    quantity := quantity
    unit_price := unitPrice
    total_amount := totalAmount }

/-- The POST /api/orders handler (database client configured).
`verificationNumber` is the generated random code, `newId`,
`newOrderNumber` and `createdAt` the database-assigned row values, and
`orderInsertOk` / `itemsInsertOk` whether each insert succeeds. -/
def ordersPOST (db : Db) (req : OrderReq) (verificationNumber : Nat)
    (newId newOrderNumber createdAt : Nat)
    (orderInsertOk itemsInsertOk : Bool) : Db × PostResult :=
  let order : OrderRow :=
    { id := newId
      order_number := newOrderNumber
      verification_number := verificationNumber
      total_amount := req.totalAmount
      status := "pending"
      created_at := createdAt
      updated_at := createdAt
      completed_at := none }
  if !orderInsertOk then (db, .dbError "order insert failed")
  else
    let db1 : Db := { db with orders := db.orders ++ [order] }
    let orderItems := req.items.map (mkOrderItem order.order_number)
    if !itemsInsertOk then (db1, .dbError "items insert failed")
    else ({ db1 with order_items := db1.order_items ++ orderItems }, .ok order)

/-! ## GET /api/order-tracking (`src/app/api/order-tracking/route.ts`) -/

inductive TrackResult where
  | missingParams
  | notFound
  | ok (order : OrderRow) (items : List ItemRow)
  deriving DecidableEq, Repr

/-- The GET /api/order-tracking handler.  The query parameters are carried
as `Option Nat` (the value of `parseInt` on the parameter when present).
The `.single()` query succeeds exactly when one row matches both filters;
the handler only reads the database, so it is returned unchanged. -/
def trackingGET (db : Db) (orderNumber verificationNumber : Option Nat) :
    Db × TrackResult :=
  match orderNumber, verificationNumber with
  | some n, some v =>
      match db.orders.filter
          (fun o => o.order_number = n ∧ o.verification_number = v) with
      | [o] => (db, .ok o (db.order_items.filter (fun it => it.order_id = o.id)))
      | _ => (db, .notFound)
  | _, _ => (db, .missingParams)

/-! ## PUT /api/order-tracking — status update endpoint -/

inductive PutResult where
  | unauthorized
  | invalidStatus
  | ok (order : OrderRow)
  | dbError (msg : String)
  deriving DecidableEq, Repr

/-- The status values the PUT endpoint accepts. -/
def validStatuses : List String := ["preparing", "ready", "completed", "cancelled"]

/-- The PUT /api/order-tracking handler.  The authorization header is
embedded as a character list; `authHeader.startsWith('Bearer ')` is the
prefix test on it.  `now` is the clock reading used for `completed_at`.
The `.update(...).eq('id', order_id).select().single()` call updates every
matching row and reports success exactly when one row matched. -/
def trackingPUT (db : Db) (authHeader : Option (List Char)) (order_id : Nat)
    (status : String) (now : Nat) : Db × PutResult :=
  match authHeader with
  | none => (db, .unauthorized)
  | some h =>
      if !(("Bearer ".toList).isPrefixOf h) then (db, .unauthorized)
      else if !(validStatuses.contains status) then (db, .invalidStatus)
      else
        let updated := db.orders.map (fun o =>
          if o.id = order_id then
            { o with
              status := status
              completed_at := if status = "completed" then some now else o.completed_at }
          else o)
        match db.orders.filter (fun o => o.id = order_id) with
        | [o] =>
            ({ db with orders := updated },
             .ok { o with
                   status := status
                   completed_at := if status = "completed" then some now else o.completed_at })
        | _ => ({ db with orders := updated }, .dbError "single row expected")

/-! ## Staff dashboard (`src/unnamed/part_000`) -/

/-- The dashboard's `loadOrders` query: active orders only
(`.neq('status','completed')`), newest first (`.order('created_at',
ascending: false)`).  A pure read: the database is not modified. -/
def loadOrdersQuery (db : Db) : List OrderRow :=
  List.insertionSort (fun a b => b.created_at ≤ a.created_at)
    (db.orders.filter (fun o => o.status ≠ "completed"))

/-- The dashboard's `updateOrderStatus`: a requested `'collected'` becomes
`'completed'`; the row(s) with the given order number get the final status
and a fresh `updated_at`.  Returns whether the update succeeded. -/
def dashUpdateOrderStatus (db : Db) (orderNumber : Nat) (newStatus : String)
    (now : Nat) (updateOk : Bool) : Db × Bool :=
  let finalStatus := if newStatus = "collected" then "completed" else newStatus
  if !updateOk then (db, false)
  else
    ({ db with orders := db.orders.map (fun o =>
        if o.order_number = orderNumber then
          { o with status := finalStatus, updated_at := now }
        else o) }, true)

/-! ## Lemmas about the JS string primitives -/

theorem prefix_append_cases {α : Type*} :
    ∀ (p b t : List α), p <+: b ++ t → p <+: b ∨ ∃ q, p = b ++ q ∧ q <+: t := by
  intro p b t h
  induction b generalizing p with
  | nil => exact Or.inr ⟨p, rfl, h⟩
  | cons c b' ih =>
    cases p with
    | nil => exact Or.inl List.nil_prefix
    | cons a p' =>
      rw [List.cons_append, List.cons_prefix_cons] at h
      obtain ⟨rfl, h'⟩ := h
      rcases ih p' h' with h1 | ⟨q, rfl, hq⟩
      · exact Or.inl (List.cons_prefix_cons.mpr ⟨rfl, h1⟩)
      · exact Or.inr ⟨q, by simp, hq⟩

theorem suffix_append_cases {α : Type*} {s b u : List α} (h : s <:+ b ++ u) :
    s <:+ u ∨ ∃ s', s = s' ++ u ∧ s' <:+ b := by
  have h' : s.reverse <+: (b ++ u).reverse := List.reverse_prefix.mpr h
  rw [List.reverse_append] at h'
  rcases prefix_append_cases _ _ _ h' with h1 | ⟨q, heq, hq⟩
  · left
    have := h1.reverse
    simpa using this
  · right
    refine ⟨q.reverse, ?_, ?_⟩
    · have := congrArg List.reverse heq
      simpa [List.reverse_append] using this
    · have := hq.reverse
      simpa using this

theorem infix_append_cases {α : Type*} {p b u : List α} (h : p <:+: b ++ u) :
    p <:+: b ∨ p <:+: u ∨ ∃ s' q, s' <:+ b ∧ q <+: u ∧ q ≠ [] ∧ p = s' ++ q := by
  rw [List.infix_iff_prefix_suffix] at h
  obtain ⟨t, hpt, hts⟩ := h
  rcases suffix_append_cases hts with h1 | ⟨s', rfl, hs'⟩
  · exact Or.inr (Or.inl (List.infix_iff_prefix_suffix.mpr ⟨t, hpt, h1⟩))
  · rcases prefix_append_cases _ _ _ hpt with h2 | ⟨q, rfl, hq⟩
    · exact Or.inl (List.infix_iff_prefix_suffix.mpr ⟨s', h2, hs'⟩)
    · by_cases hqnil : q = []
      · subst hqnil
        exact Or.inl (by simpa using hs'.isInfix)
      · exact Or.inr (Or.inr ⟨s', q, hs', hq, hqnil, rfl⟩)

/-- Removing the first occurrence of `' ' :: p` from `b ++ (' ' :: p)` gives
back `b`, provided `p` contains no space and does not occur in `b`. -/
theorem jsReplaceFirst_append (p : List Char) (hs : (' ' : Char) ∉ p) :
    ∀ b : List Char, ¬ (p <:+: b) →
      jsReplaceFirst (b ++ ' ' :: p) (' ' :: p) [] = b := by
  intro b
  induction b with
  | nil =>
    intro _
    show jsReplaceFirst (' ' :: p) (' ' :: p) [] = []
    simp [jsReplaceFirst]
  | cons c b' ih =>
    intro hnin
    have hninb' : ¬ (p <:+: b') := fun hc => hnin (List.infix_cons hc)
    have hpre : ¬ ((' ' :: p).isPrefixOf (c :: (b' ++ ' ' :: p)) = true) := by
      rw [List.isPrefixOf_iff_prefix]
      intro hp
      rw [List.cons_prefix_cons] at hp
      obtain ⟨hceq, hp'⟩ := hp
      rcases prefix_append_cases _ _ _ hp' with h1 | ⟨q, hq, hq'⟩
      · exact hnin (List.infix_cons h1.isInfix)
      · cases q with
        | nil =>
          rw [List.append_nil] at hq
          subst hq
          exact hnin (List.infix_cons List.infix_rfl)
        | cons d q' =>
          rw [List.cons_prefix_cons] at hq'
          obtain ⟨hd, _⟩ := hq'
          exact hs (hq ▸ List.mem_append_right _ (hd ▸ List.mem_cons_self _ _))
    show jsReplaceFirst (c :: (b' ++ ' ' :: p)) (' ' :: p) [] = c :: b'
    rw [jsReplaceFirst, if_neg hpre, ih hninb']

/-! ## C5: the display-name splitting convention -/

/-- C5, counterexample.  The claim says a name with neither the
`' Regular'` nor the `' Large'` suffix is kept whole with an empty size
code.  The handler, however, branches on `includes('Regular')`, so the
suffix-free name `"Regularity"` is kept whole but receives size code
`'R'`, not the empty string. -/
theorem C5_counterexample :
    splitNameSize "Regularity".toList = ("Regularity".toList, ['R']) ∧
    splitNameSize "Regularity".toList ≠ ("Regularity".toList, []) := by
  constructor
  · decide
  · decide

/-- C5, amended.  For a base name in which neither `"Regular"` nor
`"Large"` occurs as a substring, `'<Base> Regular'` splits into
`(<Base>, 'R')` and `'<Base> Large'` into `(<Base>, 'L')`; and a name
containing neither substring is kept whole with an empty size code.  (The
handler tests substring containment, not the suffix itself, so the claim's
unrestricted statement fails — see `C5_counterexample`.) -/
theorem C5_splitNameSize_amended (base : List Char)
    (hR : ¬ ("Regular".toList <:+: base)) (hL : ¬ ("Large".toList <:+: base)) :
    splitNameSize (base ++ " Regular".toList) = (base, ['R']) ∧
    splitNameSize (base ++ " Large".toList) = (base, ['L']) ∧
    (∀ name : List Char, ¬ ("Regular".toList <:+: name) →
      ¬ ("Large".toList <:+: name) → splitNameSize name = (name, [])) := by
  have hsplitR : base ++ " Regular".toList = (base ++ [' ']) ++ "Regular".toList := by
    simp
  have hsplitL : base ++ " Large".toList = (base ++ [' ']) ++ "Large".toList := by
    simp
  refine ⟨?_, ?_, ?_⟩
  · have hinc : jsIncludes (base ++ " Regular".toList) "Regular".toList = true := by
      rw [jsIncludes, decide_eq_true_iff, hsplitR]
      exact (List.suffix_append _ _).isInfix
    have hrepl : jsReplaceFirst (base ++ " Regular".toList) " Regular".toList [] = base :=
      jsReplaceFirst_append "Regular".toList (by decide) base hR
    unfold splitNameSize
    rw [hinc, hrepl]
    simp
  · have hnR : jsIncludes (base ++ " Large".toList) "Regular".toList = false := by
      rw [jsIncludes, decide_eq_false_iff_not]
      intro hinf
      rcases infix_append_cases (b := base) (u := " Large".toList) hinf with
        h | h | ⟨s', q, _, hq, hqne, heq⟩
      · exact hR h
      · have := h.length_le
        simp at this
      · cases q with
        | nil => exact hqne rfl
        | cons d q' =>
          have hd : d = ' ' := by
            have : " Large".toList = ' ' :: "Large".toList := rfl
            rw [this, List.cons_prefix_cons] at hq
            exact hq.1
          have hmem : (' ' : Char) ∈ "Regular".toList := by
            rw [heq]
            exact List.mem_append_right _ (hd ▸ List.mem_cons_self _ _)
          simp at hmem
    have hinc : jsIncludes (base ++ " Large".toList) "Large".toList = true := by
      rw [jsIncludes, decide_eq_true_iff, hsplitL]
      exact (List.suffix_append _ _).isInfix
    have hrepl : jsReplaceFirst (base ++ " Large".toList) " Large".toList [] = base :=
      jsReplaceFirst_append "Large".toList (by decide) base hL
    unfold splitNameSize
    rw [hnR, hinc, hrepl]
    simp
  · intro name hnR hnL
    have e1 : jsIncludes name "Regular".toList = false := by
      rw [jsIncludes, decide_eq_false_iff_not]; exact hnR
    have e2 : jsIncludes name "Large".toList = false := by
      rw [jsIncludes, decide_eq_false_iff_not]; exact hnL
    unfold splitNameSize
    rw [e1, e2]
    simp

/-- C5, witness: the amended statement applied to the spec's example base
name `"Montana BBQ Hamburger"`. -/
theorem C5_witness :
    (¬ ("Regular".toList <:+: "Montana BBQ Hamburger".toList)) ∧
    (¬ ("Large".toList <:+: "Montana BBQ Hamburger".toList)) ∧
    splitNameSize ("Montana BBQ Hamburger".toList ++ " Regular".toList) =
      ("Montana BBQ Hamburger".toList, ['R']) :=
  ⟨by decide, by decide,
    (C5_splitNameSize_amended "Montana BBQ Hamburger".toList
      (by decide) (by decide)).1⟩

/-! ## C3: order creation persists exactly one `pending` order row -/

/-- C3.  A POST whose order insert succeeds appends exactly one order row,
with status `"pending"` and `total_amount` equal to the parsed client
total; the client-supplied status field is never read; and when the order
insert fails the handler returns an error with the database unchanged (in
particular no item rows). -/
theorem C3_ordersPOST_spec (db : Db) (req : OrderReq) (v nid nn created : Nat)
    (itemsOk : Bool) :
    ((ordersPOST db req v nid nn created true itemsOk).1.orders =
      db.orders ++ [{ id := nid, order_number := nn, verification_number := v,
                      total_amount := req.totalAmount, status := "pending",
                      created_at := created, updated_at := created,
                      completed_at := none }]) ∧
    (∀ (s : Option String) (orderOk : Bool),
      ordersPOST db { req with status := s } v nid nn created orderOk itemsOk =
        ordersPOST db req v nid nn created orderOk itemsOk) ∧
    (ordersPOST db req v nid nn created false itemsOk =
      (db, .dbError "order insert failed")) := by
  refine ⟨?_, fun s orderOk => rfl, rfl⟩
  cases itemsOk <;> rfl

/-! ## C1: status transitions never persist the literal `collected` -/

/-- C1, counterexample.  The claim says a `collected` request through the
PUT update-order-status endpoint is rewritten to `completed` before
persistence.  In fact the endpoint's `validStatuses` list does not contain
`collected`: the request is rejected with a validation error and nothing
is persisted (the order keeps status `ready`). -/
theorem C1_counterexample :
    trackingPUT (Db.mk [⟨1, 7, 1234, 10, "ready", 0, 0, none⟩] [])
        (some "Bearer x".toList) 1 "collected" 5 =
      (Db.mk [⟨1, 7, 1234, 10, "ready", 0, 0, none⟩] [], .invalidStatus) ∧
    (trackingPUT (Db.mk [⟨1, 7, 1234, 10, "ready", 0, 0, none⟩] [])
        (some "Bearer x".toList) 1 "collected" 5).1.orders.map OrderRow.status ≠
      ["completed"] := by
  constructor
  · decide
  · decide

/-- C1, amended.  The staff dashboard's `updateOrderStatus` rewrites a
requested `collected` to `completed` and persists every other requested
status verbatim, so the value it writes is never the literal `collected`.
The PUT update-order-status endpoint does not rewrite: it rejects
`collected` (it is not in `validStatuses`) and persists nothing for it,
while each status it does accept is persisted verbatim and is not the
literal `collected`. -/
theorem C1_amended (db : Db) (n : Nat) (s : String) (now : Nat)
    (hdr : Option (List Char)) (oid : Nat) :
    ((dashUpdateOrderStatus db n s now true).1.orders =
      db.orders.map (fun o =>
        if o.order_number = n then
          { o with status := if s = "collected" then "completed" else s,
                   updated_at := now }
        else o)) ∧
    ((if s = "collected" then "completed" else s) ≠ "collected") ∧
    ((trackingPUT db hdr oid "collected" now).1 = db) ∧
    (∀ (s' : String) (h : List Char), s' ∈ validStatuses →
      ("Bearer ".toList).isPrefixOf h = true →
      (trackingPUT db (some h) oid s' now).1.orders =
        db.orders.map (fun o =>
          if o.id = oid then
            { o with status := s',
                     completed_at :=
                       if s' = "completed" then some now else o.completed_at }
          else o)) ∧
    (∀ s' ∈ validStatuses, s' ≠ "collected") := by
  refine ⟨rfl, ?_, ?_, ?_, by decide⟩
  · by_cases hc : s = "collected"
    · rw [if_pos hc]; decide
    · rwa [if_neg hc]
  · cases hdr with
    | none => rfl
    | some h =>
      simp only [trackingPUT]
      cases hb : ("Bearer ".toList).isPrefixOf h with
      | false => rfl
      | true => rfl
  · intro s' h hs' hpre
    have hcont : validStatuses.contains s' = true := List.elem_iff.mpr hs'
    simp only [trackingPUT]
    rw [hpre, hcont]
    simp only [Bool.not_true, Bool.false_eq_true, if_false]
    split <;> rfl

/-- C1, witness: the amended statement applied to a one-order database and
the accepted status `preparing`. -/
theorem C1_witness :
    ("preparing" ∈ validStatuses) ∧
    (("Bearer ".toList).isPrefixOf "Bearer tok".toList = true) ∧
    (trackingPUT (Db.mk [⟨1, 7, 1234, 10, "ready", 0, 0, none⟩] [])
        (some "Bearer tok".toList) 1 "preparing" 5).1.orders =
      (Db.mk [⟨1, 7, 1234, 10, "ready", 0, 0, none⟩] []).orders.map (fun o =>
        if o.id = 1 then
          { o with status := "preparing",
                   completed_at :=
                     if "preparing" = "completed" then some 5 else o.completed_at }
        else o) :=
  ⟨by decide, by decide,
    (C1_amended (Db.mk [⟨1, 7, 1234, 10, "ready", 0, 0, none⟩] []) 0 "x" 5
        none 1).2.2.2.1 "preparing" "Bearer tok".toList (by decide) (by decide)⟩

/-! ## C8: the active-orders read excludes exactly the completed orders -/

/-- C8.  Every order returned by the dashboard's active-orders query has
status different from `completed`; a persisted `completed` order is
excluded from the result while remaining in the store, and every
non-completed order is included — a read-time filter, not a deletion. -/
theorem C8_loadOrders_active_only (db : Db) :
    (∀ o ∈ loadOrdersQuery db, o.status ≠ "completed") ∧
    (∀ o ∈ db.orders, o.status = "completed" → o ∉ loadOrdersQuery db) ∧
    (∀ o ∈ db.orders, o.status ≠ "completed" → o ∈ loadOrdersQuery db) := by
  have hmem : ∀ x : OrderRow,
      x ∈ loadOrdersQuery db ↔ x ∈ db.orders ∧ x.status ≠ "completed" := by
    intro x
    unfold loadOrdersQuery
    rw [List.mem_insertionSort, List.mem_filter]
    simp
  refine ⟨fun o ho => ((hmem o).mp ho).2,
          fun o ho hc hin => ((hmem o).mp hin).2 hc,
          fun o ho hne => (hmem o).mpr ⟨ho, hne⟩⟩

/-- C8, witness: in a store holding one `completed` and one `pending`
order, the completed one is excluded from the active-orders read. -/
theorem C8_witness :
    ((⟨1, 7, 11, 5, "completed", 0, 0, none⟩ : OrderRow) ∈
      (Db.mk [⟨1, 7, 11, 5, "completed", 0, 0, none⟩,
              ⟨2, 8, 12, 5, "pending", 1, 1, none⟩] []).orders) ∧
    ((⟨1, 7, 11, 5, "completed", 0, 0, none⟩ : OrderRow).status = "completed") ∧
    (⟨1, 7, 11, 5, "completed", 0, 0, none⟩ : OrderRow) ∉
      loadOrdersQuery (Db.mk [⟨1, 7, 11, 5, "completed", 0, 0, none⟩,
                              ⟨2, 8, 12, 5, "pending", 1, 1, none⟩] []) :=
  ⟨by decide, by decide,
    (C8_loadOrders_active_only
        (Db.mk [⟨1, 7, 11, 5, "completed", 0, 0, none⟩,
                ⟨2, 8, 12, 5, "pending", 1, 1, none⟩] [])).2.1
      ⟨1, 7, 11, 5, "completed", 0, 0, none⟩ (by decide) (by decide)⟩

/-! ## C2: tracking lookup round-trip -/

/-- C2.  For an order created by the placement endpoint with a fresh order
number `nn` and verification number `v`, the tracking lookup with exactly
`(nn, v)` returns that order; with the same `nn` and any other
verification number it returns the not-found error; with either parameter
missing it returns the validation error; and in all three cases the stored
orders are unchanged. -/
theorem C2_tracking_roundtrip (db : Db) (req : OrderReq) (v nid nn created : Nat)
    (db' : Db) (o : OrderRow)
    (hpost : ordersPOST db req v nid nn created true true = (db', PostResult.ok o))
    (hfresh : ∀ p ∈ db.orders, p.order_number ≠ nn) :
    (trackingGET db' (some nn) (some v) =
      (db', TrackResult.ok o (db'.order_items.filter (fun it => it.order_id = o.id)))) ∧
    (∀ v', v' ≠ v →
      trackingGET db' (some nn) (some v') = (db', TrackResult.notFound)) ∧
    (∀ x, trackingGET db' none x = (db', TrackResult.missingParams) ∧
          trackingGET db' x none = (db', TrackResult.missingParams)) := by
  have hpost' := hpost
  simp only [ordersPOST, Bool.not_true, Bool.false_eq_true, if_false, ite_false,
    Prod.mk.injEq] at hpost'
  obtain ⟨hdb', ho⟩ := hpost'
  have ho' : o = { id := nid, order_number := nn, verification_number := v,
                   total_amount := req.totalAmount, status := "pending",
                   created_at := created, updated_at := created,
                   completed_at := none } := by
    cases ho with
    | refl => rfl
  have horders : db'.orders = db.orders ++ [o] := by
    rw [← hdb', ho']
  have hfilter_old : ∀ v'' : Nat,
      db.orders.filter
        (fun p => p.order_number = nn ∧ p.verification_number = v'') = [] := by
    intro v''
    rw [List.filter_eq_nil_iff]
    intro p hp
    simp only [decide_eq_true_eq, not_and]
    intro hc
    exact absurd hc (hfresh p hp)
  refine ⟨?_, ?_, ?_⟩
  · simp only [trackingGET, horders, List.filter_append, hfilter_old,
      List.nil_append, List.filter_cons, List.filter_nil]
    rw [ho']
    simp
  · intro v' hv'
    simp only [trackingGET, horders, List.filter_append, hfilter_old,
      List.nil_append, List.filter_cons, List.filter_nil]
    rw [ho']
    simp [Ne.symm hv']
  · intro x
    constructor
    · rfl
    · cases x <;> rfl

/-- C2, witness: a concrete order created into an empty store is retrieved
by exactly its `(order number, verification number)` pair, rejected for a
different verification number, and rejected when a parameter is missing. -/
theorem C2_witness :
    (ordersPOST (Db.mk [] []) (OrderReq.mk [] 0 none) 1234 1 7 0 true true =
      (Db.mk [⟨1, 7, 1234, 0, "pending", 0, 0, none⟩] [],
       PostResult.ok ⟨1, 7, 1234, 0, "pending", 0, 0, none⟩)) ∧
    (∀ p ∈ (Db.mk [] []).orders, p.order_number ≠ 7) ∧
    trackingGET (Db.mk [⟨1, 7, 1234, 0, "pending", 0, 0, none⟩] []) (some 7) (some 1234) =
      (Db.mk [⟨1, 7, 1234, 0, "pending", 0, 0, none⟩] [],
       TrackResult.ok ⟨1, 7, 1234, 0, "pending", 0, 0, none⟩
         ((Db.mk [⟨1, 7, 1234, 0, "pending", 0, 0, none⟩] []).order_items.filter
           (fun it => it.order_id = (⟨1, 7, 1234, 0, "pending", 0, 0, none⟩ : OrderRow).id))) :=
  ⟨by decide, by decide,
    (C2_tracking_roundtrip (Db.mk [] []) (OrderReq.mk [] 0 none) 1234 1 7 0 _ _
      (by decide) (by decide)).1⟩

/-! ## SecurityManager.validateTotalAmount (`src/lib/security.ts`) -/

/-- The `items.reduce((sum, item) => sum + item.price * item.quantity, 0)`
aggregate. -/
def calculatedTotal (items : List ReqItem) : ℚ :=
  items.foldl (fun sum item => sum + item.price * item.quantity) 0

/-- `SecurityManager.validateTotalAmount`: accepts when the client total is
within `0.01` of the computed aggregate. -/
def validateTotalAmount (items : List ReqItem) (totalAmount : ℚ) : Bool :=
  decide (|calculatedTotal items - totalAmount| < 1/100)

/-! ## C4: the placement endpoint does not validate the client total -/

/-- C4, counterexample.  The claim says the placement workflow rejects any
client total differing from `Σ unit_price × quantity` by at least `0.01`.
The POST orders endpoint performs no such check: with one line of
`280 × 2 = 560` and a client total of `999` it succeeds and persists an
order whose stored total is `999`, off by far more than `0.01`. -/
theorem C4_counterexample :
    ((ordersPOST (Db.mk [] [])
        (OrderReq.mk [⟨some 1, none, some "Montana BBQ Hamburger Regular".toList,
                       none, some "Beef".toList, none, 2, 280⟩] 999 none)
        1234 1 7 0 true true).2 =
      PostResult.ok ⟨1, 7, 1234, 999, "pending", 0, 0, none⟩) ∧
    (((ordersPOST (Db.mk [] [])
        (OrderReq.mk [⟨some 1, none, some "Montana BBQ Hamburger Regular".toList,
                       none, some "Beef".toList, none, 2, 280⟩] 999 none)
        1234 1 7 0 true true).1.order_items.map ItemRow.total_amount).sum = 560) ∧
    (|(999 : ℚ) - 560| ≥ 1/100) := by
  refine ⟨rfl, ?_, by norm_num⟩
  simp [ordersPOST, mkOrderItem]
  norm_num

/-- C4, amended.  `SecurityManager.validateTotalAmount` accepts exactly
the totals within `0.01` of the computed `Σ price × quantity`, but the
POST orders endpoint never invokes it: even when the check fails for the
request, the endpoint persists the parsed client total unchanged.  (The
`±0.01` check is applied only in the separate
`SecureSupabaseOrderManager.createOrder` client path.) -/
theorem C4_amended (items : List ReqItem) (total : ℚ) :
    (validateTotalAmount items total = true ↔
      |calculatedTotal items - total| < 1/100) ∧
    (∀ (db : Db) (req : OrderReq) (v nid nn created : Nat) (itemsOk : Bool),
      validateTotalAmount req.items req.totalAmount = false →
      (ordersPOST db req v nid nn created true itemsOk).1.orders =
        db.orders ++ [{ id := nid, order_number := nn, verification_number := v,
                        total_amount := req.totalAmount, status := "pending",
                        created_at := created, updated_at := created,
                        completed_at := none }]) := by
  refine ⟨decide_eq_true_iff, ?_⟩
  intro db req v nid nn created itemsOk _
  cases itemsOk <;> rfl

/-- C4, witness: the amended statement applied to the counterexample
request, whose total fails the `±0.01` check yet is persisted. -/
theorem C4_witness :
    (validateTotalAmount
        [⟨some 1, none, some "Montana BBQ Hamburger Regular".toList,
          none, some "Beef".toList, none, 2, 280⟩] 999 = false) ∧
    (ordersPOST (Db.mk [] [])
        (OrderReq.mk [⟨some 1, none, some "Montana BBQ Hamburger Regular".toList,
                       none, some "Beef".toList, none, 2, 280⟩] 999 none)
        1234 1 7 0 true true).1.orders =
      [{ id := 1, order_number := 7, verification_number := 1234,
         total_amount := 999, status := "pending",
         created_at := 0, updated_at := 0, completed_at := none }] :=
  ⟨by rw [validateTotalAmount, decide_eq_false_iff_not]
      simp [calculatedTotal]
      norm_num,
   (C4_amended [] 0).2 (Db.mk [] [])
      (OrderReq.mk [⟨some 1, none, some "Montana BBQ Hamburger Regular".toList,
                     none, some "Beef".toList, none, 2, 280⟩] 999 none)
      1234 1 7 0 true
      (by rw [validateTotalAmount, decide_eq_false_iff_not]
          simp [calculatedTotal]
          norm_num)⟩

/-! ## SecurityManager.validateOrderItems (`src/lib/security.ts`) -/

/-- A JavaScript value as far as the validator inspects one: a (non-NaN)
number, a string, a boolean, `null` or `undefined`. -/
inductive JVal where
  | num (q : ℚ)
  | str (s : String)
  | boolean (b : Bool)
  | null
  | undef
  deriving DecidableEq, Repr

/-- JS truthiness of a `JVal`. -/
def JVal.truthy : JVal → Bool
  | .num q => decide (q ≠ 0)
  | .str s => decide (s ≠ "")
  | .boolean b => b
  | .null => false
  | .undef => false

/-- One entry of the array passed to `validateOrderItems`, with the fields
the validator inspects.  (The post-check `sanitizeText` mutation of
`item.name`/`item.emoji` does not affect the returned verdict and is not
modelled.) -/
structure VItem where
  id : JVal
  name : JVal
  quantity : JVal
  price : JVal
  deriving DecidableEq, Repr

/-- The per-item checks of `validateOrderItems`, in source order: the
truthiness guard, then type-and-range checks for `id`, `name`, `quantity`
and `price`. -/
def checkOrderItem (item : VItem) : Bool :=
  if (!item.id.truthy || !item.name.truthy || !item.quantity.truthy || !item.price.truthy)
  then false
  else if (match item.id with
           | .num q => decide (q < 1) || decide (q > 1000)
           | _ => true) then false
  else if (match item.name with
           | .str s => decide (s.length > 100)
           | _ => true) then false
  else if (match item.quantity with
           | .num q => decide (q < 1) || decide (q > 99)
           | _ => true) then false
  else if (match item.price with
           | .num q => decide (q ≤ 0) || decide (q > 1000)
           | _ => true) then false
  else true

/-- `SecurityManager.validateOrderItems` on an array argument: rejects the
empty array and arrays of more than 20 items, then checks every item (the
`for` loop returns `false` on the first failing item). -/
def validateOrderItems (items : List VItem) : Bool :=
  if items.length = 0 ∨ items.length > 20 then false
  else items.all checkOrderItem

theorem checkOrderItem_spec (it : VItem) (h : checkOrderItem it = true) :
    (∃ q : ℚ, it.id = .num q ∧ 1 ≤ q ∧ q ≤ 1000) ∧
    (∃ s : String, it.name = .str s ∧ s.length ≤ 100) ∧
    (∃ q : ℚ, it.quantity = .num q ∧ 1 ≤ q ∧ q ≤ 99) ∧
    (∃ q : ℚ, it.price = .num q ∧ 0 < q ∧ q ≤ 1000) := by
  unfold checkOrderItem at h
  split at h
  · exact absurd h (by simp)
  split at h
  · exact absurd h (by simp)
  split at h
  · exact absurd h (by simp)
  split at h
  · exact absurd h (by simp)
  split at h
  · exact absurd h (by simp)
  rename_i h1 h2 h3 h4 h5
  rw [Bool.not_eq_true] at h2 h3 h4 h5
  refine ⟨?_, ?_, ?_, ?_⟩
  · cases hid : it.id with
    | num q =>
      have h2' : (decide (q < 1) || decide (q > 1000)) = false := by
        rw [hid] at h2; exact h2
      simp only [Bool.or_eq_false_iff, decide_eq_false_iff_not, not_lt] at h2'
      exact ⟨q, rfl, h2'.1, h2'.2⟩
    | str s => cases (show (true : Bool) = false by rw [hid] at h2; exact h2)
    | boolean b => cases (show (true : Bool) = false by rw [hid] at h2; exact h2)
    | null => cases (show (true : Bool) = false by rw [hid] at h2; exact h2)
    | undef => cases (show (true : Bool) = false by rw [hid] at h2; exact h2)
  · cases hn : it.name with
    | str s =>
      have h3' : (decide (s.length > 100)) = false := by
        rw [hn] at h3; exact h3
      simp only [decide_eq_false_iff_not, not_lt] at h3'
      exact ⟨s, rfl, h3'⟩
    | num q => cases (show (true : Bool) = false by rw [hn] at h3; exact h3)
    | boolean b => cases (show (true : Bool) = false by rw [hn] at h3; exact h3)
    | null => cases (show (true : Bool) = false by rw [hn] at h3; exact h3)
    | undef => cases (show (true : Bool) = false by rw [hn] at h3; exact h3)
  · cases hq : it.quantity with
    | num q =>
      have h4' : (decide (q < 1) || decide (q > 99)) = false := by
        rw [hq] at h4; exact h4
      simp only [Bool.or_eq_false_iff, decide_eq_false_iff_not, not_lt] at h4'
      exact ⟨q, rfl, h4'.1, h4'.2⟩
    | str s => cases (show (true : Bool) = false by rw [hq] at h4; exact h4)
    | boolean b => cases (show (true : Bool) = false by rw [hq] at h4; exact h4)
    | null => cases (show (true : Bool) = false by rw [hq] at h4; exact h4)
    | undef => cases (show (true : Bool) = false by rw [hq] at h4; exact h4)
  · cases hp : it.price with
    | num q =>
      have h5' : (decide (q ≤ 0) || decide (q > 1000)) = false := by
        rw [hp] at h5; exact h5
      simp only [Bool.or_eq_false_iff, decide_eq_false_iff_not, not_le, not_lt] at h5'
      exact ⟨q, rfl, h5'.1, h5'.2⟩
    | str s => cases (show (true : Bool) = false by rw [hp] at h5; exact h5)
    | boolean b => cases (show (true : Bool) = false by rw [hp] at h5; exact h5)
    | null => cases (show (true : Bool) = false by rw [hp] at h5; exact h5)
    | undef => cases (show (true : Bool) = false by rw [hp] at h5; exact h5)

/-- C9.  `validateOrderItems` returns `true` only for a list of 1–20 items
each of which has a numeric `id` in `[1,1000]`, a string `name` of length
at most 100, a numeric `quantity` in `[1,99]` and a numeric `price` in
`(0,1000]`; in particular it returns `false` for the empty list and for
any list of more than 20 items. -/
theorem C9_validateOrderItems_spec (items : List VItem) :
    (validateOrderItems items = true →
      1 ≤ items.length ∧ items.length ≤ 20 ∧
      ∀ it ∈ items,
        (∃ q : ℚ, it.id = .num q ∧ 1 ≤ q ∧ q ≤ 1000) ∧
        (∃ s : String, it.name = .str s ∧ s.length ≤ 100) ∧
        (∃ q : ℚ, it.quantity = .num q ∧ 1 ≤ q ∧ q ≤ 99) ∧
        (∃ q : ℚ, it.price = .num q ∧ 0 < q ∧ q ≤ 1000)) ∧
    (validateOrderItems [] = false) ∧
    (items.length > 20 → validateOrderItems items = false) := by
  refine ⟨?_, rfl, ?_⟩
  · intro h
    unfold validateOrderItems at h
    split at h
    · exact absurd h (by simp)
    rename_i hlen
    push_neg at hlen
    refine ⟨Nat.one_le_iff_ne_zero.mpr hlen.1, hlen.2, ?_⟩
    intro it hit
    exact checkOrderItem_spec it (List.all_eq_true.mp h it hit)
  · intro hlen
    unfold validateOrderItems
    rw [if_pos (Or.inr hlen)]

/-- C9, witness: a singleton list with a valid item is accepted and the
characterization applies to it. -/
theorem C9_witness :
    (validateOrderItems
        [⟨.num 1, .str "Montana BBQ Hamburger Regular", .num 2, .num 280⟩] = true) ∧
    (1 ≤ ([⟨.num 1, .str "Montana BBQ Hamburger Regular", .num 2, .num 280⟩] :
        List VItem).length) :=
  ⟨by decide,
    ((C9_validateOrderItems_spec
        [⟨.num 1, .str "Montana BBQ Hamburger Regular", .num 2, .num 280⟩]).1
      (by decide)).1⟩

/-! ## SecurityManager.checkOrderCreationRateLimit (`src/lib/security.ts`)

The static `orderCreationAttempts` map is embedded as a total function from
client ids to timestamp lists (absent keys read as `[]`, matching
`this.orderCreationAttempts.get(clientId) || []`).  `Date.now()` readings
are integers, explicit parameters of each call. -/

/-- One call to `checkOrderCreationRateLimit`: prune attempts older than the
60-second window, refuse when five remain, otherwise record the attempt. -/
def rlCheck (st : String → List Int) (clientId : String) (now : Int) :
    Bool × (String → List Int) :=
  let attempts := st clientId
  let recentAttempts := attempts.filter (fun time => now - time < 60000)
  if recentAttempts.length ≥ 5 then (false, st)
  else (true, Function.update st clientId (recentAttempts ++ [now]))

/-- The empty attempts map. -/
def rlInit : String → List Int := fun _ => []

/-- The attempts map after a sequence of calls `(clientId, now)`. -/
def rlFinal (st : String → List Int) : List (String × Int) → (String → List Int)
  | [] => st
  | (c, t) :: rest => rlFinal (rlCheck st c t).2 rest

/-- The timestamps of the calls for client `c` that were allowed
(returned `true`), in call order. -/
def rlAllowed (st : String → List Int) (calls : List (String × Int)) (c : String) :
    List Int :=
  match calls with
  | [] => []
  | (c', t) :: rest =>
      (if (rlCheck st c' t).1 = true ∧ c' = c then [t] else []) ++
        rlAllowed (rlCheck st c' t).2 rest c

theorem rlCheck_of_ge {st : String → List Int} {c' : String} {now : Int}
    (h : ((st c').filter (fun time => now - time < 60000)).length ≥ 5) :
    rlCheck st c' now = (false, st) := by
  simp only [rlCheck]
  rw [if_pos h]

theorem rlCheck_of_lt {st : String → List Int} {c' : String} {now : Int}
    (h : ¬ ((st c').filter (fun time => now - time < 60000)).length ≥ 5) :
    rlCheck st c' now =
      (true, Function.update st c'
        ((st c').filter (fun time => now - time < 60000) ++ [now])) := by
  simp only [rlCheck]
  rw [if_neg h]

/-- Narrowing the pruning horizon: filtering at a later `now` factors
through filtering at any earlier `M`. -/
theorem rl_filter_mono {A : List Int} {M now : Int} (h : M ≤ now) :
    A.filter (fun t => now - t < 60000) =
      (A.filter (fun t => M - t < 60000)).filter (fun t => now - t < 60000) := by
  rw [List.filter_filter]
  apply List.filter_congr
  intro x _
  cases hx : (decide (now - x < 60000)) with
  | false => simp
  | true =>
    rw [decide_eq_true_iff] at hx
    have : M - x < 60000 := by omega
    simp [hx, this]

/-- Main invariant: starting from a state that stores a sublist of the
allowed history `A` containing at least its in-window part, the final
state's in-window attempts for `c` are exactly the in-window allowed
attempts. -/
theorem rl_filter_eq (calls : List (String × Int)) :
    ∀ (st A : String → List Int) (M now : Int) (c : String),
      List.Chain (· ≤ ·) M ((calls.map Prod.snd) ++ [now]) →
      (∀ c', st c' <+ A c' ∧
        (A c').filter (fun t => M - t < 60000) <+ st c') →
      (rlFinal st calls c).filter (fun t => now - t < 60000) =
        (A c ++ rlAllowed st calls c).filter (fun t => now - t < 60000) := by
  induction calls with
  | nil =>
    intro st A M now c hchain hst
    have hMnow : M ≤ now := by
      rw [List.map_nil, List.nil_append, List.chain_cons] at hchain
      exact hchain.1
    simp only [rlFinal, rlAllowed, List.append_nil]
    refine List.Sublist.antisymm ((hst c).1.filter _) ?_
    rw [rl_filter_mono hMnow]
    exact (hst c).2.filter _
  | cons hd rest ih =>
    obtain ⟨c', t⟩ := hd
    intro st A M now c hchain hst
    rw [List.map_cons, List.cons_append, List.chain_cons] at hchain
    obtain ⟨hMt, hchain'⟩ := hchain
    have hrecent : (st c').filter (fun x => t - x < 60000) =
        (A c').filter (fun x => t - x < 60000) := by
      refine List.Sublist.antisymm ((hst c').1.filter _) ?_
      rw [rl_filter_mono hMt]
      exact (hst c').2.filter _
    by_cases hge : ((st c').filter (fun time => t - time < 60000)).length ≥ 5
    · -- the call is refused: state unchanged, nothing recorded
      have hstep := rlCheck_of_ge hge
      have hst' : ∀ c'', st c'' <+ A c'' ∧
          (A c'').filter (fun x => t - x < 60000) <+ st c'' := by
        intro c''
        refine ⟨(hst c'').1, ?_⟩
        rw [rl_filter_mono hMt]
        exact ((hst c'').2.filter _).trans (List.filter_sublist _)
      have := ih st A t now c hchain' hst'
      simp only [rlFinal, rlAllowed, hstep]
      simpa using this
    · -- the call is allowed: `t` is recorded for `c'`
      have hstep := rlCheck_of_lt hge
      have hst' : ∀ c'',
          Function.update st c' ((st c').filter (fun x => t - x < 60000) ++ [t]) c'' <+
            Function.update A c' (A c' ++ [t]) c'' ∧
          (Function.update A c' (A c' ++ [t]) c'').filter (fun x => t - x < 60000) <+
            Function.update st c' ((st c').filter (fun x => t - x < 60000) ++ [t]) c'' := by
        intro c''
        by_cases hc'' : c'' = c'
        · subst hc''
          rw [Function.update_same, Function.update_same]
          constructor
          · rw [hrecent]
            exact (List.filter_sublist _).append (List.Sublist.refl _)
          · rw [List.filter_append, ← hrecent]
            have ht : ([t].filter (fun x => t - x < 60000)) = [t] := by
              simp
            rw [ht]
        · rw [Function.update_noteq hc'', Function.update_noteq hc'']
          refine ⟨(hst c'').1, ?_⟩
          rw [rl_filter_mono hMt]
          exact ((hst c'').2.filter _).trans (List.filter_sublist _)
      have hih := ih _ _ t now c hchain' hst'
      simp only [rlFinal, rlAllowed, hstep]
      by_cases hc : c' = c
      · subst hc
        simp only [true_and, if_pos rfl]
        rw [hih, Function.update_same, List.append_assoc]
        simp
      · have hnc : ¬ (True ∧ c' = c) := fun h => hc h.2
        rw [if_neg hnc, List.nil_append, hih, Function.update_noteq (Ne.symm hc)]

theorem rlAllowed_append (st : String → List Int) (l₁ l₂ : List (String × Int))
    (c : String) :
    rlAllowed st (l₁ ++ l₂) c = rlAllowed st l₁ c ++ rlAllowed (rlFinal st l₁) l₂ c := by
  induction l₁ generalizing st with
  | nil => simp [rlAllowed, rlFinal]
  | cons hd rest ih =>
    obtain ⟨c', t⟩ := hd
    simp only [List.cons_append, rlAllowed, rlFinal]
    rw [show rest.append l₂ = rest ++ l₂ from rfl, ih, List.append_assoc]

/-- A call after a time-monotone call history returns `true` exactly when
fewer than five previously allowed attempts for the same client lie within
the 60 seconds preceding it. -/
theorem rlCheck_true_iff (calls : List (String × Int)) (c : String) (now : Int)
    (hchain : List.Chain' (· ≤ ·) (calls.map Prod.snd ++ [now])) :
    (rlCheck (rlFinal rlInit calls) c now).1 = true ↔
      ((rlAllowed rlInit calls c).filter (fun t => now - t < 60000)).length < 5 := by
  have key : (rlFinal rlInit calls c).filter (fun t => now - t < 60000) =
      (rlAllowed rlInit calls c).filter (fun t => now - t < 60000) := by
    cases calls with
    | nil => simp [rlFinal, rlAllowed, rlInit]
    | cons hd rest =>
      have hM : List.Chain (· ≤ ·) hd.2 ((hd :: rest).map Prod.snd ++ [now]) := by
        rw [List.map_cons, List.cons_append, List.chain_cons]
        rw [List.map_cons, List.cons_append] at hchain
        exact ⟨le_refl _, hchain⟩
      have hst : ∀ c', rlInit c' <+ (fun _ => ([] : List Int)) c' ∧
          ((fun _ => ([] : List Int)) c').filter (fun t => hd.2 - t < 60000) <+ rlInit c' := by
        intro c'
        exact ⟨List.nil_sublist _, List.nil_sublist _⟩
      have := rl_filter_eq (hd :: rest) rlInit (fun _ => []) hd.2 now c hM hst
      simpa using this
  simp only [rlCheck]
  rw [key]
  by_cases h : ((rlAllowed rlInit calls c).filter (fun t => now - t < 60000)).length ≥ 5
  · rw [if_pos h]
    simp
    omega
  · rw [if_neg h]
    simp
    omega

theorem length_filter_le_of_imp {α : Type*} {p q : α → Bool} {l : List α}
    (h : ∀ x ∈ l, p x = true → q x = true) :
    (l.filter p).length ≤ (l.filter q).length := by
  have heq : l.filter p = (l.filter q).filter p := by
    rw [List.filter_filter]
    apply List.filter_congr
    intro x hx
    cases hp : p x with
    | false => simp
    | true => simp [h x hx hp]
  rw [heq]
  exact (List.filter_sublist _).length_le

/-- In any 60-second window, at most five attempts per client are allowed. -/
theorem rlAllowed_window_le (calls : List (String × Int)) (c : String)
    (hchain : List.Chain' (· ≤ ·) (calls.map Prod.snd)) (a : Int) :
    ((rlAllowed rlInit calls c).filter
      (fun t => a < t ∧ t ≤ a + 60000)).length ≤ 5 := by
  induction calls using List.reverseRecOn with
  | nil => simp [rlAllowed]
  | append_singleton init last ih =>
    obtain ⟨c', t⟩ := last
    have hmap : (init ++ [(c', t)]).map Prod.snd = init.map Prod.snd ++ [t] := by
      simp
    rw [hmap] at hchain
    have hchain_init : List.Chain' (· ≤ ·) (init.map Prod.snd) :=
      hchain.left_of_append
    rw [rlAllowed_append, List.filter_append, List.length_append]
    by_cases hb : ((rlCheck (rlFinal rlInit init) c' t).1 = true ∧ c' = c)
    · obtain ⟨hb1, rfl⟩ := hb
      have hsingle : rlAllowed (rlFinal rlInit init) [(c', t)] c' = [t] := by
        simp [rlAllowed, hb1]
      rw [hsingle]
      by_cases hwin : (a < t ∧ t ≤ a + 60000)
      · have hlt := (rlCheck_true_iff init c' t hchain).mp hb1
        have hle : ((rlAllowed rlInit init c').filter
              (fun x => a < x ∧ x ≤ a + 60000)).length ≤
            ((rlAllowed rlInit init c').filter (fun x => t - x < 60000)).length := by
          apply length_filter_le_of_imp
          intro x _ hx
          rw [decide_eq_true_iff] at hx ⊢
          omega
        have hone : (([t] : List Int).filter
            (fun x => a < x ∧ x ≤ a + 60000)).length ≤ 1 := by
          simp [List.filter]
          split <;> simp
        omega
      · have : (([t] : List Int).filter (fun x => a < x ∧ x ≤ a + 60000)) = [] := by
          simp [hwin]
        rw [this]
        simpa using ih hchain_init
    · have hsingle : rlAllowed (rlFinal rlInit init) [(c', t)] c = [] := by
        simp only [rlAllowed]
        rw [if_neg hb]
        simp [rlAllowed]
      rw [hsingle]
      simpa using ih hchain_init

/-- C6.  Along any call history with non-decreasing clock readings, a call
for client `c` returns `true` exactly when fewer than five previously
allowed attempts for `c` lie within the 60 seconds preceding it (recorded
attempts older than 60 seconds never count), and consequently at most five
calls for `c` are allowed inside any 60-second window. -/
theorem C6_rateLimiter_spec (calls : List (String × Int)) (c : String) (now : Int)
    (hchain : List.Chain' (· ≤ ·) (calls.map Prod.snd ++ [now])) :
    ((rlCheck (rlFinal rlInit calls) c now).1 = true ↔
      ((rlAllowed rlInit calls c).filter (fun t => now - t < 60000)).length < 5) ∧
    (∀ a : Int, ((rlAllowed rlInit calls c).filter
        (fun t => a < t ∧ t ≤ a + 60000)).length ≤ 5) :=
  ⟨rlCheck_true_iff calls c now hchain,
   fun a => rlAllowed_window_le calls c hchain.left_of_append a⟩

/-- C6, witness: two allowed calls for client `"a"` at times `0` and `1`;
a third call at time `2` is still allowed, matching the characterization. -/
theorem C6_witness :
    (List.Chain' (· ≤ ·) (([("a", (0:Int)), ("a", 1)].map Prod.snd) ++ [(2:Int)])) ∧
    ((rlCheck (rlFinal rlInit [("a", 0), ("a", 1)]) "a" 2).1 = true ↔
      ((rlAllowed rlInit [("a", 0), ("a", 1)] "a").filter
        (fun t => 2 - t < 60000)).length < 5) :=
  ⟨by norm_num [List.chain'_cons, List.chain'_singleton],
   (C6_rateLimiter_spec [("a", 0), ("a", 1)] "a" 2
     (by norm_num [List.chain'_cons, List.chain'_singleton])).1⟩

/-! ## TrackingSystem (`src/lib/trackingSystem.ts`)

Subscriber callbacks are embedded as opaque identifiers (`Nat`); "invoking"
a callback is recorded by listing its identifier in the notification list
an update emits.  The `statusUpdates` map is an association list, the
`subscribers` map a total function (absent keys read as `[]`). -/

structure TrackingData where
  orderNumber : Nat
  verificationNumber : Nat
  status : String
  timestamp : Nat
  lastUpdated : Nat
  deriving DecidableEq, Repr

structure TSState where
  statusUpdates : List (Nat × TrackingData)
  subscribers : Nat → List Nat

/-- `subscribeToOrder`: append the callback to the order's subscriber
list. -/
def subscribeToOrder (st : TSState) (orderNumber : Nat) (cb : Nat) : TSState :=
  { st with
    subscribers :=
      Function.update st.subscribers orderNumber (st.subscribers orderNumber ++ [cb]) }

/-- The unsubscribe closure returned by `subscribeToOrder`: `indexOf` plus
`splice(index, 1)` removes the first occurrence of the callback when
present. -/
def tsUnsubscribe (st : TSState) (orderNumber : Nat) (cb : Nat) : TSState :=
  { st with
    subscribers :=
      Function.update st.subscribers orderNumber ((st.subscribers orderNumber).erase cb) }

/-- `updateOrderStatus`: when tracking data exists for the order, store the
new status and notify the order's current subscribers (returned as the
list of invoked callback identifiers); otherwise do nothing. -/
def tsUpdateOrderStatus (st : TSState) (orderNumber : Nat) (newStatus : String)
    (now : Nat) : TSState × List Nat :=
  match st.statusUpdates.lookup orderNumber with
  | none => (st, [])
  | some existing =>
      ({ st with statusUpdates := st.statusUpdates.map (fun p =>
            if p.1 = orderNumber
            then (orderNumber, { existing with status := newStatus, lastUpdated := now })
            else p) },
       st.subscribers orderNumber)

/-- A sequence of `updateOrderStatus` calls, collecting each call's
notification list. -/
def tsRunUpdates (st : TSState) : List (Nat × String × Nat) → TSState × List (List Nat)
  | [] => (st, [])
  | (n, s, t) :: rest =>
      let r := tsUpdateOrderStatus st n s t
      let rr := tsRunUpdates r.1 rest
      (rr.1, r.2 :: rr.2)

theorem tsUpdate_subscribers (st : TSState) (n : Nat) (s : String) (t : Nat) :
    (tsUpdateOrderStatus st n s t).1.subscribers = st.subscribers := by
  simp only [tsUpdateOrderStatus]
  cases st.statusUpdates.lookup n <;> rfl

theorem tsUpdate_called (st : TSState) (n : Nat) (s : String) (t : Nat) :
    ∀ x ∈ (tsUpdateOrderStatus st n s t).2, x ∈ st.subscribers n := by
  simp only [tsUpdateOrderStatus]
  cases st.statusUpdates.lookup n with
  | none => simp
  | some e => simp

/-- C7.  If a callback is registered once (it occurs in no subscriber list
of the initial state), then after subscribing it to an order and invoking
the returned unsubscribe function, no later sequence of `updateOrderStatus`
calls — for any order numbers and statuses — ever invokes that callback. -/
theorem C7_unsubscribe_stops_callbacks (st : TSState) (N cb : Nat)
    (hfresh : ∀ n, cb ∉ st.subscribers n)
    (updates : List (Nat × String × Nat)) :
    ∀ called ∈ (tsRunUpdates (tsUnsubscribe (subscribeToOrder st N cb) N cb)
        updates).2, cb ∉ called := by
  have hafter : ∀ n,
      cb ∉ (tsUnsubscribe (subscribeToOrder st N cb) N cb).subscribers n := by
    intro n
    simp only [tsUnsubscribe, subscribeToOrder]
    by_cases hn : n = N
    · subst hn
      rw [Function.update_same, Function.update_same,
        List.erase_append_right _ (hfresh n), List.erase_cons_head,
        List.append_nil]
      exact hfresh n
    · rw [Function.update_noteq hn, Function.update_noteq hn]
      exact hfresh n
  -- the subscriber map is never modified by updates, so induct
  clear hfresh
  generalize (tsUnsubscribe (subscribeToOrder st N cb) N cb) = st0 at hafter ⊢
  induction updates generalizing st0 with
  | nil => simp [tsRunUpdates]
  | cons hd rest ih =>
    obtain ⟨n, s, t⟩ := hd
    intro called hcalled
    simp only [tsRunUpdates, List.mem_cons] at hcalled
    rcases hcalled with rfl | hmem
    · intro hc
      exact hafter n (tsUpdate_called st0 n s t cb hc)
    · refine ih (tsUpdateOrderStatus st0 n s t).1 ?_ called hmem
      rw [tsUpdate_subscribers]
      exact hafter

/-- C7, witness: a freshly subscribed-then-unsubscribed callback `5` is
not invoked by a subsequent update of its own order. -/
theorem C7_witness :
    (∀ n, 5 ∉ (TSState.mk [(7, ⟨7, 1234, "waiting", 0, 0⟩)] (fun _ => [])).subscribers n) ∧
    ∀ called ∈ (tsRunUpdates
        (tsUnsubscribe (subscribeToOrder
          (TSState.mk [(7, ⟨7, 1234, "waiting", 0, 0⟩)] (fun _ => [])) 7 5) 7 5)
        [(7, "ready", 1)]).2, 5 ∉ called :=
  ⟨fun _ => List.not_mem_nil 5,
   C7_unsubscribe_stops_callbacks
     (TSState.mk [(7, ⟨7, 1234, "waiting", 0, 0⟩)] (fun _ => [])) 7 5
     (fun _ => List.not_mem_nil 5) [(7, "ready", 1)]⟩

/-! ## SecurityManager.encryptData / decryptData (`src/lib/security.ts`)

Data and key strings are embedded as their code-point lists (`List Nat`);
the claim restricts data to code points below 256, under which
`String.fromCharCode`/`charCodeAt` are the identity on the byte level.
`btoa`/`atob` are the platform's standard base64 codec on such strings. -/

def b64Alphabet : List Char :=
  "ABCDEFGHIJKLMNOPQRSTUVWXYZabcdefghijklmnopqrstuvwxyz0123456789+/".toList

def b64Char (v : Nat) : Char := b64Alphabet.getD v 'A'

def b64Val (c : Char) : Nat := b64Alphabet.indexOf c

/-- `btoa`: base64-encode a byte string (bytes below 256). -/
def btoa : List Nat → List Char
  | [] => []
  | [b1] => [b64Char (b1 / 4), b64Char (b1 % 4 * 16), '=', '=']
  | [b1, b2] =>
      [b64Char (b1 / 4), b64Char (b1 % 4 * 16 + b2 / 16), b64Char (b2 % 16 * 4), '=']
  | b1 :: b2 :: b3 :: rest =>
      b64Char (b1 / 4) :: b64Char (b1 % 4 * 16 + b2 / 16) ::
        b64Char (b2 % 16 * 4 + b3 / 64) :: b64Char (b3 % 64) :: btoa rest

/-- `atob`: base64-decode. -/
def atob : List Char → List Nat
  | c1 :: c2 :: c3 :: c4 :: rest =>
      if c3 = '=' then [b64Val c1 * 4 + b64Val c2 / 16]
      else if c4 = '=' then
        [b64Val c1 * 4 + b64Val c2 / 16, b64Val c2 % 16 * 16 + b64Val c3 / 4]
      else
        (b64Val c1 * 4 + b64Val c2 / 16) ::
          (b64Val c2 % 16 * 16 + b64Val c3 / 4) ::
          (b64Val c3 % 4 * 64 + b64Val c4) :: atob rest
  | _ => []

theorem b64Char_ne_eq {v : Nat} (h : v < 64) : b64Char v ≠ '=' := by
  have hall : ∀ w : Fin 64, b64Char w.val ≠ '=' := by decide
  exact hall ⟨v, h⟩

theorem b64Val_b64Char {v : Nat} (h : v < 64) : b64Val (b64Char v) = v := by
  have hall : ∀ w : Fin 64, b64Val (b64Char w.val) = w.val := by decide
  exact hall ⟨v, h⟩

/-- Base64 round-trip on byte strings. -/
theorem atob_btoa : ∀ bs : List Nat, (∀ b ∈ bs, b < 256) → atob (btoa bs) = bs := by
  intro bs
  induction bs using btoa.induct with
  | case1 => intro _; rfl
  | case2 b1 =>
    intro h
    have hb1 : b1 < 256 := h b1 (by simp)
    show atob [b64Char (b1 / 4), b64Char (b1 % 4 * 16), '=', '='] = [b1]
    rw [atob, if_pos rfl, b64Val_b64Char (by omega), b64Val_b64Char (by omega)]
    congr 1
    omega
  | case3 b1 b2 =>
    intro h
    have hb1 : b1 < 256 := h b1 (by simp)
    have hb2 : b2 < 256 := h b2 (by simp)
    show atob [b64Char (b1 / 4), b64Char (b1 % 4 * 16 + b2 / 16),
               b64Char (b2 % 16 * 4), '='] = [b1, b2]
    rw [atob, if_neg (b64Char_ne_eq (by omega)), if_pos rfl,
      b64Val_b64Char (by omega), b64Val_b64Char (by omega),
      b64Val_b64Char (by omega)]
    congr 1
    · omega
    · congr 1
      omega
  | case4 b1 b2 b3 rest ih =>
    intro h
    have hb1 : b1 < 256 := h b1 (by simp)
    have hb2 : b2 < 256 := h b2 (by simp)
    have hb3 : b3 < 256 := h b3 (by simp)
    have hrest : ∀ b ∈ rest, b < 256 := fun b hb => h b (by simp [hb])
    show atob (b64Char (b1 / 4) :: b64Char (b1 % 4 * 16 + b2 / 16) ::
        b64Char (b2 % 16 * 4 + b3 / 64) :: b64Char (b3 % 64) :: btoa rest) =
      b1 :: b2 :: b3 :: rest
    rw [atob, if_neg (b64Char_ne_eq (by omega)), if_neg (b64Char_ne_eq (by omega)),
      b64Val_b64Char (by omega), b64Val_b64Char (by omega),
      b64Val_b64Char (by omega), b64Val_b64Char (by omega), ih hrest]
    congr 1
    · omega
    · congr 1
      · omega
      · congr 1
        omega

/-- JS `%` (truncating remainder) by 256 followed by the source's
`if (originalChar < 0) originalChar += 256` adjustment. -/
def jsMod256 (x : Int) : Int :=
  let r := Int.tmod x 256
  if r < 0 then r + 256 else r

theorem tmod_gt_neg256 (x : Int) : -256 < Int.tmod x 256 := by
  cases x with
  | ofNat m =>
    have := Int.tmod_nonneg (a := Int.ofNat m) 256 (Int.ofNat_nonneg m)
    omega
  | negSucc m =>
    have hdef : Int.tmod (Int.negSucc m) 256 = -(((m + 1) % 256 : Nat) : Int) := rfl
    have hlt : (m + 1) % 256 < 256 := Nat.mod_lt _ (by norm_num)
    omega

theorem jsMod256_eq (x : Int) : jsMod256 x = x % 256 := by
  have h1 := Int.tdiv_add_tmod x 256
  have h2 := Int.tmod_lt_of_pos x (b := 256) (by norm_num)
  have h3 := tmod_gt_neg256 x
  unfold jsMod256
  by_cases hneg : Int.tmod x 256 < 0
  · rw [if_pos hneg]
    omega
  · rw [if_neg hneg]
    omega

/-- One encryption round (the inner `for` over the string): character `i`
is shifted by the round key's character at `i % roundKey.length`,
modulo 256. -/
def encryptRound (rk : List Nat) : Nat → List Nat → List Nat
  | _, [] => []
  | i, c :: rest => (c + rk.getD (i % rk.length) 0) % 256 :: encryptRound rk (i + 1) rest

/-- One decryption round: the inverse shift, with the source's negative
adjustment. -/
def decryptRound (rk : List Nat) : Nat → List Nat → List Nat
  | _, [] => []
  | i, c :: rest =>
      (jsMod256 ((c : Int) - rk.getD (i % rk.length) 0)).toNat ::
        decryptRound rk (i + 1) rest

theorem decryptRound_encryptRound (rk : List Nat) :
    ∀ (i : Nat) (data : List Nat), (∀ c ∈ data, c < 256) →
      decryptRound rk i (encryptRound rk i data) = data := by
  intro i data
  induction data generalizing i with
  | nil => intro _; rfl
  | cons c rest ih =>
    intro h
    have hc : c < 256 := h c (List.mem_cons_self _ _)
    simp only [encryptRound, decryptRound]
    rw [jsMod256_eq, ih (i + 1) (fun x hx => h x (List.mem_cons_of_mem _ hx))]
    congr 1
    omega

theorem encryptRound_lt (rk : List Nat) :
    ∀ (i : Nat) (data : List Nat), ∀ x ∈ encryptRound rk i data, x < 256 := by
  intro i data
  induction data generalizing i with
  | nil => intro x hx; simp [encryptRound] at hx
  | cons c rest ih =>
    intro x hx
    simp only [encryptRound, List.mem_cons] at hx
    rcases hx with rfl | hx
    · exact Nat.mod_lt _ (by norm_num)
    · exact ih (i + 1) x hx

/-- JS 32-bit signed coercion (`| 0` / `& hash`). -/
def toInt32 (n : Int) : Int := (n + 2 ^ 31) % 2 ^ 32 - 2 ^ 31

/-- The loop of `simpleHash`: `hash = ((hash << 5) - hash) + char`
followed by the 32-bit truncation `hash = hash & hash`. -/
def simpleHashLoop : List Nat → Int → Int
  | [], hash => hash
  | c :: rest, hash => simpleHashLoop rest (toInt32 (toInt32 (hash * 32) - hash + c))

/-- `SecurityManager.simpleHash`:
`Math.abs(hash).toString(36) + str.length.toString(36)`, as a code-point
list. -/
def simpleHash (str : List Nat) : List Nat :=
  ((Nat.toDigits 36 (simpleHashLoop str 0).natAbs) ++
    (Nat.toDigits 36 str.length)).map Char.toNat

/-- The round key for a round: `simpleHash(keyHash + round.toString())`. -/
def roundKeyFor (keyHash : List Nat) (round : Nat) : List Nat :=
  simpleHash (keyHash ++ (Nat.toDigits 10 round).map Char.toNat)

/-- `SecurityManager.encryptData`: with crypto available, three rounds of
keyed shifting then base64; otherwise plain base64. -/
def encryptData (data key : List Nat) (cryptoAvailable : Bool) : List Char :=
  if cryptoAvailable then
    let keyHash := simpleHash key
    btoa (encryptRound (roundKeyFor keyHash 2) 0
      (encryptRound (roundKeyFor keyHash 1) 0
        (encryptRound (roundKeyFor keyHash 0) 0 data)))
  else btoa data

/-- `SecurityManager.decryptData`: base64-decode, then with crypto
available undo rounds 2, 1, 0. -/
def decryptData (encrypted : List Char) (key : List Nat) (cryptoAvailable : Bool) :
    List Nat :=
  let decrypted := atob encrypted
  if cryptoAvailable then
    let keyHash := simpleHash key
    decryptRound (roundKeyFor keyHash 0) 0
      (decryptRound (roundKeyFor keyHash 1) 0
        (decryptRound (roundKeyFor keyHash 2) 0 decrypted))
  else decrypted

/-- C10.  For every key and every data string whose code points are below
256, decrypting the encryption of the data with the same key, in the same
environment branch (crypto available or not), returns the original data. -/
theorem C10_decrypt_encrypt_roundtrip (data key : List Nat)
    (h : ∀ c ∈ data, c < 256) (cryptoAvailable : Bool) :
    decryptData (encryptData data key cryptoAvailable) key cryptoAvailable = data := by
  cases cryptoAvailable with
  | false =>
    simp only [encryptData, decryptData, if_false, Bool.false_eq_true]
    exact atob_btoa data h
  | true =>
    simp only [encryptData, decryptData, if_true]
    rw [atob_btoa _ (encryptRound_lt _ _ _),
      decryptRound_encryptRound _ _ _ (encryptRound_lt _ _ _),
      decryptRound_encryptRound _ _ _ (encryptRound_lt _ _ _),
      decryptRound_encryptRound _ _ _ h]

/-- C10, witness: the round trip on the concrete string `"Hi!"` (code
points `[72, 105, 33]`) with key `"k"` (`[107]`), crypto available. -/
theorem C10_witness :
    (∀ c ∈ [72, 105, 33], c < 256) ∧
    decryptData (encryptData [72, 105, 33] [107] true) [107] true = [72, 105, 33] :=
  ⟨by decide, C10_decrypt_encrypt_roundtrip [72, 105, 33] [107] (by decide) true⟩

end Smokie
